import Mathlib

/-!
Verification of the market-analysis backtesting engine.

Shallow embedding of `src/backtester.py` (class `Backtester`): price-table
construction, daily returns, rebalance scheduling, selection, holdings
projection, portfolio/benchmark returns, drawdowns and summary statistics.

Modelling conventions:
* a price cell is `Option ℚ`, with `none` standing for a missing value (NaN);
* dates are natural numbers (the index is date-ordered, so only the order and
  the calendar-period structure matter); the calendar grouping used by pandas
  `resample` is abstracted as a `Calendar` record (period index of a date and
  last calendar day of a period, satisfying the defining laws of those two);
* float arithmetic is modelled by exact rationals; `NaN`-producing statistics
  are `Option`-valued, `none` standing for NaN (which the final dict
  conversion `float(x) if pd.notna(x) else None` turns into null).
-/

namespace Backtest

/-- A price cell: `none` models a missing value (NaN). -/
abbrev PVal := Option ℚ

/-! ## PriceTable construction (`Backtester.__init__`, backtester.py line 10)

`self.prices = price_df.sort_index().ffill().dropna(axis=1, how='all')` -/

/-- Forward-fill a column, carrying the last observed value (`DataFrame.ffill`
per column). The first argument is the value carried in from earlier rows. -/
def ffillFrom : PVal → List PVal → List PVal
  | _, [] => []
  | last, none :: ps => last :: ffillFrom last ps
  | _, some p :: ps => some p :: ffillFrom (some p) ps

/-- `ffill` of a whole column: nothing is carried in before the first row. -/
def ffill (col : List PVal) : List PVal := ffillFrom none col

/-- Raw input table: tickers (column names, in column order) and rows of
`(date, prices in ticker order)`, as handed to `Backtester.__init__`. -/
structure RawTable where
  tickers : List String
  rows : List (ℕ × List PVal)

/-- The constructed price table: date index plus one price column per kept
ticker, in column order. -/
structure PriceTable where
  dates : List ℕ
  cols : List (String × List PVal)

/-- `sort_index()`: sort the rows by date ascending. -/
def sortRows (rows : List (ℕ × List PVal)) : List (ℕ × List PVal) :=
  List.insertionSort (fun a b => a.1 ≤ b.1) rows

/-- Extract the `i`-th raw column from a row list. -/
def rawCol (rows : List (ℕ × List PVal)) (i : ℕ) : List PVal :=
  rows.map (fun r => r.2.getD i none)

/-- `Backtester.__init__`: sort by date, forward-fill per ticker, drop the
columns that are entirely NaN after the fill (`dropna(axis=1, how='all')`). -/
def buildPriceTable (rt : RawTable) : PriceTable :=
  let rows := sortRows rt.rows
  { dates := rows.map Prod.fst
    cols := (rt.tickers.enum.map (fun p => (p.2, ffill (rawCol rows p.1)))).filter
      (fun c => c.2.any (fun v => v.isSome)) }

/-! ## Daily returns (backtester.py line 21)

`returns = price.pct_change().fillna(0)`.  pandas `pct_change` pads the series
(forward-fills) before differencing; on the already forward-filled
`self.prices` that pad is the identity.  `fillna(0)` turns every NaN return
(first row, rows with a missing operand) into 0. -/

/-- One `pct_change` step followed by `fillna(0)`: `cur/prev - 1` when both
values are present, `0` (NaN filled) otherwise. -/
def pctStep (prev cur : PVal) : ℚ :=
  match prev, cur with
  | some q, some p => p / q - 1
  | _, _ => 0

/-- Returns of the tail of a column given the previous (padded) value. -/
def pctAux : PVal → List PVal → List ℚ
  | _, [] => []
  | prev, p :: ps => pctStep prev p :: pctAux p ps

/-- `pct_change().fillna(0)` on one column: the first row's return is NaN,
hence 0 after the fill; later rows difference the padded column. -/
def pctChange (col : List PVal) : List ℚ :=
  match ffill col with
  | [] => []
  | p :: ps => 0 :: pctAux p ps

/-- The `returns` table: one return column per price column. -/
def retCols (pt : PriceTable) : List (String × List ℚ) :=
  pt.cols.map (fun c => (c.1, pctChange c.2))

/-- Return column of a ticker (`returns[t]`); missing ticker gives `[]`. -/
def retOf (pt : PriceTable) (t : String) : List ℚ :=
  ((retCols pt).lookup t).getD []

/-- Arithmetic mean of a list of rationals, as pandas `mean` on a NaN-free
series: sum divided by length. -/
def mean (xs : List ℚ) : ℚ := xs.sum / xs.length

/-- `returns.mean(axis=1)` at row `j`: mean over all ticker columns
(backtester.py line 61, the equal-weight benchmark). -/
def benchRetAt (pt : PriceTable) (j : ℕ) : ℚ :=
  mean ((retCols pt).map (fun c => c.2.getD j 0))

/-- The benchmark return series over all dates. -/
def benchRet (pt : PriceTable) : List ℚ :=
  (List.range pt.dates.length).map (benchRetAt pt)

/-! ## Rebalance scheduling (backtester.py lines 23-24 and 30-40)

`rebal_dates = pd.Series(1, index=price.resample(rebalance).first().index)`.
pandas frequency strings `"M"` and `"Q"` are month-END and quarter-END
frequencies: the labels of `resample("M").first()` are the last calendar day
of every month between the first and the last index date (inclusive), whether
or not those days are trading days.  The calendar grouping is abstracted: -/

/-- Calendar-period structure of the date line, as used by pandas `resample`
with an end-of-period frequency (`"M"` or `"Q"`): `month d` is the index of
the calendar period containing day `d`, and `mEnd m` is the last calendar day
of period `m`. -/
structure Calendar where
  month : ℕ → ℕ
  mEnd : ℕ → ℕ
  month_mono : ∀ {d e : ℕ}, d ≤ e → month d ≤ month e
  month_mEnd : ∀ m, month (mEnd m) = m
  le_mEnd : ∀ d, d ≤ mEnd (month d)

/-- The candidate rebalance boundaries, as produced by
`price.resample(freq).first().index` for an end-of-period frequency: the last
calendar day of every period from the first index date's period to the last
index date's period. -/
def candidates (cal : Calendar) (dates : List ℕ) : List ℕ :=
  match dates.head?, dates.getLast? with
  | some a, some b =>
      (List.range (cal.month b + 1 - cal.month a)).map (fun k => cal.mEnd (cal.month a + k))
  | _, _ => []

/-- Resolution of a candidate boundary to an index date (backtester.py lines
33-40): an exact index hit is kept; otherwise
`price.index.get_indexer([d], method="pad")` returns the position of the last
index date `≤ d`, or -1 (modelled as `none`, the candidate is skipped). -/
def resolveDate (dates : List ℕ) (d : ℕ) : Option ℕ :=
  if d ∈ dates then some d
  else (dates.filter (fun x => decide (x ≤ d))).getLast?

/-! ## Scores and selection (backtester.py lines 27 and 41-45) -/

/-- The per-ticker score map of line 27:
`scores = {t: valuation_scores.get(t, (np.nan, None, None))[0] for t in price.columns}`.
We model the already-projected first component: `none` is a NaN score or an
absent ticker.  `scoreOf` is total over all tickers, as the dict is. -/
abbrev ScoreMap := List (String × Option ℚ)

/-- Score of a ticker: the stored score, or NaN (`none`) when absent. -/
def scoreOf (sm : ScoreMap) (t : String) : Option ℚ :=
  (sm.lookup t).getD none

/-- `avail = price.loc[d_eff].dropna().index.tolist()` at row position `j`:
the tickers with a present (non-NaN) price on that row, in column order. -/
def availAt (pt : PriceTable) (j : ℕ) : List String :=
  pt.cols.filterMap (fun c => if (c.2.getD j none).isSome then some c.1 else none)

/-- Sort key of an (original position, ticker) pair: its score.  Defined only
on pairs whose ticker has a non-NaN score; the default is never reached. -/
def scoreKey (sm : ScoreMap) (p : ℕ × String) : ℚ :=
  (scoreOf sm p.2).getD 0

/-- Python's `sorted(candidates, key=score)` is a stable ascending sort: it
produces the unique ordering of the (distinct) original positions that is
sorted by the lexicographic key (score, original position).  `rankLE` is that
lexicographic order. -/
def rankLE (sm : ScoreMap) (a b : ℕ × String) : Prop :=
  scoreKey sm a < scoreKey sm b ∨ (scoreKey sm a = scoreKey sm b ∧ a.1 ≤ b.1)

instance (sm : ScoreMap) : DecidableRel (rankLE sm) := fun _ _ =>
  inferInstanceAs (Decidable (_ ∨ _))

instance (sm : ScoreMap) : IsTotal (ℕ × String) (rankLE sm) where
  total a b := by
    rcases lt_trichotomy (scoreKey sm a) (scoreKey sm b) with h | h | h
    · exact Or.inl (Or.inl h)
    · rcases le_total a.1 b.1 with h1 | h1
      · exact Or.inl (Or.inr ⟨h, h1⟩)
      · exact Or.inr (Or.inr ⟨h.symm, h1⟩)
    · exact Or.inr (Or.inl h)

instance (sm : ScoreMap) : IsTrans (ℕ × String) (rankLE sm) where
  trans a b c hab hbc := by
    rcases hab with h1 | ⟨h1, h1'⟩
    · rcases hbc with h2 | ⟨h2, h2'⟩
      · exact Or.inl (lt_trans h1 h2)
      · exact Or.inl (by rw [← h2]; exact h1)
    · rcases hbc with h2 | ⟨h2, h2'⟩
      · exact Or.inl (by rw [h1]; exact h2)
      · exact Or.inr ⟨h1.trans h2, le_trans h1' h2'⟩

/-- Line 43: filter the available tickers to those with a non-NaN score
(`a in scores` is always true: `scores` ranges over all columns), then sort
ascending by score, stably. -/
def rankedAt (pt : PriceTable) (sm : ScoreMap) (j : ℕ) : List String :=
  (List.insertionSort (rankLE sm)
    (((availAt pt j).filter (fun a => (scoreOf sm a).isSome)).enum)).map Prod.snd

/-- Line 44: `selected = ranked[:top_n]`. -/
def selectAt (pt : PriceTable) (sm : ScoreMap) (topn : ℕ) (j : ℕ) : List String :=
  (rankedAt pt sm j).take topn

/-- Selection at an index date `d` (`price.loc[d_eff]` row). -/
def selectAtDate (pt : PriceTable) (sm : ScoreMap) (topn : ℕ) (d : ℕ) : List String :=
  selectAt pt sm topn (pt.dates.indexOf d)

/-! ## The holdings map (backtester.py lines 29-45) -/

/-- Python dict assignment `m[k] = v`: overwrite the value when the key is
present (keeping its position), append otherwise. -/
def updateMap (m : List (ℕ × List String)) (k : ℕ) (v : List String) :
    List (ℕ × List String) :=
  if m.any (fun p => p.1 == k) then m.map (fun p => if p.1 == k then (k, v) else p)
  else m ++ [(k, v)]

/-- The `holdings_map` loop of lines 30-45: resolve each candidate, skip the
unresolvable ones, and store the selection at the effective date. -/
def buildHoldingsMap (pt : PriceTable) (sm : ScoreMap) (topn : ℕ) (cal : Calendar) :
    List (ℕ × List String) :=
  (candidates cal pt.dates).foldl
    (fun m d =>
      match resolveDate pt.dates d with
      | none => m
      | some de => updateMap m de (selectAtDate pt sm topn de)) []

/-! ## Holdings projection (backtester.py lines 47-57) -/

/-- `valid_reb = [r for r in holdings_map.keys() if r <= dt]`, then `max`:
the latest rebalance key at or before `dt`, when one exists. -/
def maxKeyLE (m : List (ℕ × List String)) (dt : ℕ) : Option ℕ :=
  ((m.map Prod.fst).filter (fun r => decide (r ≤ dt))).max?

/-- One iteration of the holdings loop body for date `dt` with current
holdings `cur`. -/
def holdingsStep (m : List (ℕ × List String)) (cur : List String) (dt : ℕ) :
    List String :=
  match maxKeyLE m dt with
  | none => cur
  | some r => (m.lookup r).getD cur

/-- The holdings loop: walk the dates in order, carrying `current`. -/
def holdingsSeriesAux (m : List (ℕ × List String)) :
    List String → List ℕ → List (ℕ × List String)
  | _, [] => []
  | cur, dt :: rest =>
      let h := holdingsStep m cur dt
      (dt, h) :: holdingsSeriesAux m h rest

/-- `holdings_series`: one `(date, holdings)` entry per trading date, starting
from empty holdings. -/
def holdingsSeries (pt : PriceTable) (sm : ScoreMap) (topn : ℕ) (cal : Calendar) :
    List (ℕ × List String) :=
  holdingsSeriesAux (buildHoldingsMap pt sm topn cal) [] pt.dates

/-! ## Portfolio returns (backtester.py lines 59-71) -/

/-- Lines 62-69: on each date, 0 for empty holdings, otherwise
`returns.loc[dt, sel].mean()` — the mean of the held tickers' returns.  The
subsequent `fillna(0)` of line 71 is the identity here: `returns` holds no
NaN after its own `fillna(0)`. -/
def portRetList (pt : PriceTable) (hs : List (ℕ × List String)) : List ℚ :=
  hs.enum.map (fun p =>
    if p.2.2 = [] then 0 else mean (p.2.2.map (fun t => (retOf pt t).getD p.1 0)))

/-! ## Cumulative series, running max, drawdown (lines 72-73 and 85-90) -/

/-- `(1+r).cumprod()` with accumulator. -/
def cumProdAux : ℚ → List ℚ → List ℚ
  | _, [] => []
  | acc, r :: rs =>
      let c := acc * (1 + r)
      c :: cumProdAux c rs

/-- `cum = (1+ret).cumprod()`. -/
def cumProd (rs : List ℚ) : List ℚ := cumProdAux 1 rs

/-- Tail of `cummax` given the running maximum so far. -/
def runMaxAux : ℚ → List ℚ → List ℚ
  | _, [] => []
  | m, c :: cs =>
      let m2 := max m c
      m2 :: runMaxAux m2 cs

/-- `cum.cummax()`. -/
def runMax : List ℚ → List ℚ
  | [] => []
  | c :: cs => c :: runMaxAux c cs

/-- `drawdown = (cum - rolling_max) / rolling_max` (lines 86 and 90). -/
def drawdown (cum : List ℚ) : List ℚ :=
  (cum.zip (runMax cum)).map (fun p => (p.1 - p.2) / p.2)

/-! ## Statistics (backtester.py lines 76-108)

pandas `Series.std()` uses the sample standard deviation (`ddof=1`), which is
NaN for fewer than two observations.  NaN-valued statistics are `none`; the
dict construction of lines 102-108 (`float(x) if pd.notna(x) else None`) then
reports them as null. -/

/-- Sample variance (`ddof=1`): NaN (`none`) when fewer than 2 observations.
`std > 0` iff this is `some v` with `0 < v`, since `std = √variance`. -/
def sampleVar (xs : List ℚ) : Option ℚ :=
  if xs.length < 2 then none
  else some (((xs.map (fun x => (x - mean xs) ^ 2)).sum) / ((xs.length : ℚ) - 1))

/-- `ann_vol = port_ret.std() * np.sqrt(252)` (line 78); NaN propagates. -/
noncomputable def annualVol (rs : List ℚ) : Option ℝ :=
  (sampleVar rs).map (fun v => Real.sqrt (v : ℝ) * Real.sqrt 252)

/-- Lines 79-83: `sharpe = (mean*252 - rf) / (std * sqrt 252)` when
`port_ret.std() > 0`, else NaN.  A NaN std compares false against 0, so both
the NaN-std case and the zero-std case fall to the `else` branch.  The branch
is stated on the variance: `std > 0 ↔ var > 0`. -/
noncomputable def sharpeOf (rs : List ℚ) (rf : ℚ) : Option ℝ :=
  match sampleVar rs with
  | none => none
  | some v =>
      if 0 < v then
        some (((mean rs : ℝ) * 252 - (rf : ℝ)) / (Real.sqrt (v : ℝ) * Real.sqrt 252))
      else none

/-- Line 77: `ann_return = cum.iloc[-1] ** (252/len(cum)) - 1 if len > 0 else NaN`. -/
noncomputable def annualReturn (cum : List ℚ) : Option ℝ :=
  match cum.getLast? with
  | none => none
  | some c => some (((c : ℝ)) ^ ((252 : ℝ) / (cum.length : ℝ)) - 1)

/-- The stats record of lines 102-108; `none` is the null reported for NaN. -/
structure StatsRecord where
  annual_return : Option ℝ
  annual_vol : Option ℝ
  sharpe : Option ℝ
  max_drawdown : Option ℚ
  final_cum_return : Option ℚ

/-- Lines 76-108 assembled: the statistics of a portfolio return series and
its cumulative series.  `drawdown.min()` of an empty series is NaN (`none`),
and `cum.iloc[-1]` is guarded by `len > 0`. -/
noncomputable def statsOf (rs : List ℚ) (cum : List ℚ) (rf : ℚ) : StatsRecord :=
  { annual_return := annualReturn cum
    annual_vol := annualVol rs
    sharpe := sharpeOf rs rf
    max_drawdown := (drawdown cum).min?
    final_cum_return := cum.getLast? }

/-- The per-day output table and stats of `run_strategy` (lines 92-109). -/
structure BTResult where
  portfolio_return : List ℚ
  benchmark_return : List ℚ
  cum_portfolio : List ℚ
  cum_benchmark : List ℚ
  holdings : List (ℕ × List String)
  portfolio_drawdown : List ℚ
  benchmark_drawdown : List ℚ
  stats : StatsRecord

/-- `Backtester.run_strategy`: the full pipeline on a constructed price
table. -/
noncomputable def runStrategy (pt : PriceTable) (sm : ScoreMap) (topn : ℕ)
    (cal : Calendar) (rf : ℚ) : BTResult :=
  let hs := holdingsSeries pt sm topn cal
  let port := portRetList pt hs
  let bench := benchRet pt
  let cumP := cumProd port
  let cumB := cumProd bench
  { portfolio_return := port
    benchmark_return := bench
    cum_portfolio := cumP
    cum_benchmark := cumB
    holdings := hs
    portfolio_drawdown := drawdown cumP
    benchmark_drawdown := drawdown cumB
    stats := statsOf port cumP rf }

/-! ## Spec-side definitions

These restate, in the specification's own words, the quantities the
refinement claims compare against the code-side definitions above. -/

/-- Modelled from the spec (§4.5): per-ticker daily simple return
`price[t]/price[t-1] - 1`, the first date's return defined as 0, and any NaN
return treated as 0. -/
def specColReturn (col : List PVal) (j : ℕ) : ℚ :=
  if j = 0 then 0
  else
    match col.getD (j - 1) none, col.getD j none with
    | some q, some p => p / q - 1
    | _, _ => 0

/-- Modelled from the spec (§4.5): portfolio return on a date = arithmetic
mean of the per-ticker returns of exactly the held tickers, 0 when the
holdings are empty. -/
def specPortRet (pt : PriceTable) (hold : List String) (j : ℕ) : ℚ :=
  if hold = [] then 0
  else (hold.map (fun t => (retOf pt t).getD j 0)).sum / (hold.length : ℚ)

/-- Modelled from the spec (§4.5): benchmark return on a date = arithmetic
mean of the per-ticker returns of all ticker columns on that date. -/
def specBenchRet (pt : PriceTable) (j : ℕ) : ℚ :=
  ((retCols pt).map (fun c => c.2.getD j 0)).sum / ((retCols pt).length : ℚ)

/-- Modelled from the spec (§4.2, claim C4): the first trading day of
calendar period `m` that is present in the index. -/
def firstTradingOfPeriod (cal : Calendar) (dates : List ℕ) (m : ℕ) : Option ℕ :=
  (dates.filter (fun d => decide (cal.month d = m))).head?

/-- A concrete calendar for witnesses and counterexamples: periods of 30
days, day `30*m + 29` ending period `m`. -/
def cal30 : Calendar where
  month := fun d => d / 30
  mEnd := fun m => 30 * m + 29
  month_mono := fun h => Nat.div_le_div_right h
  month_mEnd := by intro m; show (30 * m + 29) / 30 = m; omega
  le_mEnd := by intro d; show d ≤ 30 * (d / 30) + 29; omega

/-- Concrete fixtures used by the witness theorems. -/
def rt0 : RawTable :=
  { tickers := ["A", "B"]
    rows := [(30, [some 10, some 20]), (45, [some 11, some 18])] }

/-- Concrete score map for the witnesses: A scores lower than B. -/
def sm0 : ScoreMap := [("A", some 1), ("B", some 2)]

/-- A concrete holdings assignment for the C1 witness. -/
def hs0 : List (ℕ × List String) := [(30, ["A"]), (45, ["A", "B"])]

/-! ## Helper lemmas -/

theorem ffillFrom_length (v : PVal) (c : List PVal) :
    (ffillFrom v c).length = c.length := by
  induction c generalizing v with
  | nil => rfl
  | cons p ps ih => cases p <;> simp [ffillFrom, ih]

theorem ffillFrom_idem (v : PVal) (c : List PVal) :
    ffillFrom v (ffillFrom v c) = ffillFrom v c := by
  induction c generalizing v with
  | nil => rfl
  | cons p ps ih =>
    cases p with
    | none => cases v with
      | none => simpa [ffillFrom] using ih none
      | some q => simpa [ffillFrom] using ih (some q)
    | some q => simpa [ffillFrom] using ih (some q)

theorem ffill_idem (c : List PVal) : ffill (ffill c) = ffill c :=
  ffillFrom_idem none c

theorem ffillFrom_getD_isSome (c : List PVal) (v : PVal) (j : ℕ) (hj : j < c.length) :
    ((ffillFrom v c).getD j none).isSome = true ↔
      v.isSome = true ∨ ∃ k, k ≤ j ∧ (c.getD k none).isSome = true := by
  induction c generalizing v j with
  | nil => simp at hj
  | cons p ps ih =>
    cases j with
    | zero =>
      cases p with
      | none =>
        simp only [ffillFrom, List.getD_cons_zero]
        constructor
        · intro h; exact Or.inl h
        · rintro (h | ⟨k, hk, hsome⟩)
          · exact h
          · interval_cases k; simp at hsome
      | some q =>
        simp only [ffillFrom, List.getD_cons_zero]
        exact iff_of_true rfl (Or.inr ⟨0, le_refl 0, rfl⟩)
    | succ j' =>
      have hj' : j' < ps.length := by simpa using hj
      cases p with
      | none =>
        simp only [ffillFrom, List.getD_cons_succ]
        rw [ih v j' hj']
        constructor
        · rintro (h | ⟨k, hk, hsome⟩)
          · exact Or.inl h
          · exact Or.inr ⟨k + 1, by omega, by simpa using hsome⟩
        · rintro (h | ⟨k, hk, hsome⟩)
          · exact Or.inl h
          · cases k with
            | zero => simp at hsome
            | succ k' => exact Or.inr ⟨k', by omega, by simpa using hsome⟩
      | some q =>
        simp only [ffillFrom, List.getD_cons_succ]
        refine iff_of_true ((ih (some q) j' hj').2 (Or.inl rfl)) (Or.inr ⟨0, by omega, rfl⟩)

theorem ffillFrom_exists_isSome (c : List PVal) (v : PVal) :
    (∃ x ∈ ffillFrom v c, x.isSome = true) ↔
      (c ≠ [] ∧ v.isSome = true) ∨ ∃ x ∈ c, x.isSome = true := by
  induction c generalizing v with
  | nil => simp [ffillFrom]
  | cons p ps ih =>
    cases p with
    | none =>
      simp only [ffillFrom, List.mem_cons]
      rw [show (∃ x, (x = v ∨ x ∈ ffillFrom v ps) ∧ x.isSome = true) ↔
          (v.isSome = true ∨ ∃ x ∈ ffillFrom v ps, x.isSome = true) by
        constructor
        · rintro ⟨x, hx | hx, hs⟩
          · exact Or.inl (hx ▸ hs)
          · exact Or.inr ⟨x, hx, hs⟩
        · rintro (h | ⟨x, hx, hs⟩)
          · exact ⟨v, Or.inl rfl, h⟩
          · exact ⟨x, Or.inr hx, hs⟩]
      rw [ih v]
      constructor
      · rintro (h | (⟨_, h⟩ | ⟨x, hx, hs⟩))
        · exact Or.inl ⟨by simp, h⟩
        · exact Or.inl ⟨by simp, h⟩
        · exact Or.inr ⟨x, by simp [hx], hs⟩
      · rintro (⟨_, h⟩ | ⟨x, hx, hs⟩)
        · exact Or.inl h
        · rcases hx with h0 | hx'
          · subst h0; simp at hs
          · exact Or.inr (Or.inr ⟨x, hx', hs⟩)
    | some q =>
      refine iff_of_true ⟨some q, by simp [ffillFrom], rfl⟩ (Or.inr ⟨some q, by simp, rfl⟩)

theorem enumFrom_map_getD {α β : Type*} (f : ℕ × α → β) :
    ∀ (l : List α) (n j : ℕ) (d : β) (hj : j < l.length),
    ((List.enumFrom n l).map f).getD j d = f (n + j, l.get ⟨j, hj⟩) := by
  intro l
  induction l with
  | nil => intro n j d hj; simp at hj
  | cons a t ih =>
    intro n j d hj
    cases j with
    | zero => simp [List.enumFrom]
    | succ j' =>
      have hj' : j' < t.length := by simpa using hj
      have h1 : n + (j' + 1) = (n + 1) + j' := by omega
      simp only [List.enumFrom, List.map_cons, List.getD_cons_succ, List.get_cons_succ]
      rw [ih (n + 1) j' d hj', h1]

theorem enum_map_getD {α β : Type*} (f : ℕ × α → β) (l : List α) (j : ℕ) (d : β)
    (hj : j < l.length) :
    (l.enum.map f).getD j d = f (j, l.get ⟨j, hj⟩) := by
  have := enumFrom_map_getD f l 0 j d hj
  simpa [List.enum] using this

theorem range_map_getD {β : Type*} (f : ℕ → β) (n j : ℕ) (d : β) (hj : j < n) :
    ((List.range n).map f).getD j d = f j := by
  have h1 : j < ((List.range n).map f).length := by simpa using hj
  rw [List.getD_eq_getElem _ _ h1]
  simp

theorem zip_map_getD {α β γ : Type*} (g : α × β → γ) :
    ∀ (l : List α) (m : List β) (j : ℕ) (d : γ) (hj : j < l.length) (hj2 : j < m.length),
    ((l.zip m).map g).getD j d = g (l.get ⟨j, hj⟩, m.get ⟨j, hj2⟩) := by
  intro l
  induction l with
  | nil => intro m j d hj hj2; simp at hj
  | cons a t ih =>
    intro m j d hj hj2
    cases m with
    | nil => simp at hj2
    | cons b u =>
      cases j with
      | zero => simp
      | succ j' =>
        have h1 : j' < t.length := by simpa using hj
        have h2 : j' < u.length := by simpa using hj2
        simpa using ih u j' d h1 h2

theorem runMaxAux_length (cs : List ℚ) : ∀ m : ℚ, (runMaxAux m cs).length = cs.length := by
  induction cs with
  | nil => intro m; rfl
  | cons c t ih => intro m; simp [runMaxAux, ih]

theorem runMax_length (cs : List ℚ) : (runMax cs).length = cs.length := by
  cases cs with
  | nil => rfl
  | cons c t => simp [runMax, runMaxAux_length]

theorem runMaxAux_ge_seed (cs : List ℚ) :
    ∀ (m : ℚ) (j : ℕ), j < cs.length → m ≤ (runMaxAux m cs).getD j 0 := by
  induction cs with
  | nil => intro m j h; simp at h
  | cons c t ih =>
    intro m j h
    cases j with
    | zero => simp [runMaxAux]
    | succ j' =>
      have h' : j' < t.length := by simpa using h
      have := ih (max m c) j' h'
      calc m ≤ max m c := le_max_left m c
        _ ≤ _ := by simpa [runMaxAux] using this

theorem runMaxAux_ge_elem (cs : List ℚ) :
    ∀ (m : ℚ) (j : ℕ), j < cs.length → cs.getD j 0 ≤ (runMaxAux m cs).getD j 0 := by
  induction cs with
  | nil => intro m j h; simp at h
  | cons c t ih =>
    intro m j h
    cases j with
    | zero => simp [runMaxAux]
    | succ j' =>
      have h' : j' < t.length := by simpa using h
      simpa [runMaxAux] using ih (max m c) j' h'

theorem runMax_ge_head (c : ℚ) (cs : List ℚ) (j : ℕ) (h : j < (c :: cs).length) :
    c ≤ (runMax (c :: cs)).getD j 0 := by
  cases j with
  | zero => simp [runMax]
  | succ j' =>
    have h' : j' < cs.length := by simp at h; omega
    simpa [runMax] using runMaxAux_ge_seed cs c j' h'

theorem runMax_ge_elem (cs : List ℚ) (j : ℕ) (h : j < cs.length) :
    cs.getD j 0 ≤ (runMax cs).getD j 0 := by
  cases cs with
  | nil => simp at h
  | cons c t =>
    cases j with
    | zero => simp [runMax]
    | succ j' =>
      have h' : j' < t.length := by simpa using h
      simpa [runMax] using runMaxAux_ge_elem t c j' h'

theorem cumProdAux_length (rs : List ℚ) : ∀ a : ℚ, (cumProdAux a rs).length = rs.length := by
  induction rs with
  | nil => intro a; rfl
  | cons r t ih => intro a; simp [cumProdAux, ih]

theorem cumProd_length (rs : List ℚ) : (cumProd rs).length = rs.length :=
  cumProdAux_length rs 1

theorem cumProd_cons (r : ℚ) (rs : List ℚ) :
    cumProd (r :: rs) = (1 + r) :: cumProdAux (1 + r) rs := by
  simp [cumProd, cumProdAux]

theorem drawdown_length (cum : List ℚ) : (drawdown cum).length = cum.length := by
  simp [drawdown, runMax_length]

theorem drawdown_getD (cum : List ℚ) (j : ℕ) (h : j < cum.length) :
    (drawdown cum).getD j 0 =
      (cum.getD j 0 - (runMax cum).getD j 0) / (runMax cum).getD j 0 := by
  have h2 : j < (runMax cum).length := by rw [runMax_length]; exact h
  rw [drawdown, zip_map_getD _ cum (runMax cum) j 0 h h2]
  rw [List.getD_eq_getElem cum 0 h, List.getD_eq_getElem (runMax cum) 0 h2]
  simp [List.get_eq_getElem]

theorem pairwise_le_head {l : List ℕ} {h a : ℕ} (hs : l.Pairwise (· ≤ ·))
    (hh : l.head? = some h) (ha : a ∈ l) : h ≤ a := by
  cases l with
  | nil => simp at ha
  | cons x t =>
    have hx : x = h := by simpa using hh
    subst hx
    rcases ha with _ | ha
    · exact le_refl _
    · exact (List.pairwise_cons.1 hs).1 a (by assumption)

theorem pairwise_le_getLast {l : List ℕ} (hs : l.Pairwise (· ≤ ·)) :
    ∀ {b a : ℕ}, l.getLast? = some b → a ∈ l → a ≤ b := by
  induction l with
  | nil => intro b a hb ha; simp at ha
  | cons x t ih =>
    intro b a hb ha
    cases t with
    | nil =>
      have hb' : x = b := by simpa using hb
      have ha' : a = x := by simpa using ha
      exact le_of_eq (ha'.trans hb')
    | cons y u =>
      rw [List.getLast?_cons_cons] at hb
      rcases ha with _ | ha
      · have hbmem : b ∈ y :: u := List.mem_of_mem_getLast? (by simp [hb])
        exact (List.pairwise_cons.1 hs).1 b hbmem
      · exact ih (List.Pairwise.of_cons hs) hb (by assumption)

theorem resolveDate_none {dates : List ℕ} {c : ℕ}
    (h : resolveDate dates c = none) : ∀ x ∈ dates, ¬ x ≤ c := by
  by_cases hc : c ∈ dates
  · simp [resolveDate, hc] at h
  · simp only [resolveDate, hc, if_false] at h
    rw [List.getLast?_eq_none_iff, List.filter_eq_nil_iff] at h
    intro x hx hxc
    exact h x hx (by simpa using hxc)

theorem resolveDate_some {dates : List ℕ} {c e : ℕ} (hs : dates.Pairwise (· ≤ ·))
    (h : resolveDate dates c = some e) :
    e ∈ dates ∧ e ≤ c ∧ ∀ x ∈ dates, x ≤ c → x ≤ e := by
  by_cases hc : c ∈ dates
  · simp only [resolveDate, hc, if_true, Option.some.injEq] at h
    subst h
    exact ⟨hc, le_refl _, fun x _ hxc => hxc⟩
  · simp only [resolveDate, hc, if_false] at h
    have he : e ∈ dates.filter (fun x => decide (x ≤ c)) :=
      List.mem_of_mem_getLast? (by simp [h])
    have he' := List.mem_filter.1 he
    refine ⟨he'.1, by simpa using he'.2, ?_⟩
    intro x hx hxc
    have hxf : x ∈ dates.filter (fun x => decide (x ≤ c)) :=
      List.mem_filter.2 ⟨hx, by simpa using hxc⟩
    exact pairwise_le_getLast (List.Pairwise.filter _ hs) h hxf

theorem maxKeyLE_some {m : List (ℕ × List String)} {dt r : ℕ}
    (h : maxKeyLE m dt = some r) :
    r ∈ m.map Prod.fst ∧ r ≤ dt ∧ ∀ k ∈ m.map Prod.fst, k ≤ dt → k ≤ r := by
  have hmem := List.max?_mem (@max_choice ℕ _) h
  have hmax := List.max?_le_iff (fun _ _ _ => max_le_iff) h (x := r)
  have hr := List.mem_filter.1 hmem
  refine ⟨hr.1, by simpa using hr.2, ?_⟩
  intro k hk hkdt
  exact (hmax.1 (le_refl r)) k (List.mem_filter.2 ⟨hk, by simpa using hkdt⟩)

theorem maxKeyLE_none {m : List (ℕ × List String)} {dt : ℕ}
    (h : maxKeyLE m dt = none) : ∀ k ∈ m.map Prod.fst, ¬ k ≤ dt := by
  rw [maxKeyLE, List.max?_eq_none_iff, List.filter_eq_nil_iff] at h
  intro k hk hkdt
  exact h k hk (by simpa using hkdt)

theorem maxKeyLE_none_mono {m : List (ℕ × List String)} {d1 d2 : ℕ}
    (hle : d1 ≤ d2) (h : maxKeyLE m d2 = none) : maxKeyLE m d1 = none := by
  rw [maxKeyLE, List.max?_eq_none_iff, List.filter_eq_nil_iff]
  intro k hk
  have := maxKeyLE_none h k hk
  simp only [decide_eq_true_eq]
  omega

theorem lookup_isSome_of_mem_keys {α β : Type*} [BEq α] [LawfulBEq α]
    {m : List (α × β)} {k : α}
    (h : k ∈ m.map Prod.fst) : (m.lookup k).isSome = true := by
  induction m with
  | nil => simp at h
  | cons p t ih =>
    by_cases hk : k = p.1
    · have hk' : (k == p.1) = true := by simp [hk]
      simp [List.lookup, hk']
    · have hk' : (k == p.1) = false := by simp [hk]
      simp only [List.lookup, hk']
      apply ih
      rcases List.mem_map.1 h with ⟨q, hq, hqe⟩
      rcases List.mem_cons.1 hq with rfl | hq'
      · exact absurd hqe.symm hk
      · exact List.mem_map.2 ⟨q, hq', hqe⟩

theorem lookup_mem {α β : Type*} [BEq α] [LawfulBEq α]
    {m : List (α × β)} {k : α} {v : β}
    (h : m.lookup k = some v) : (k, v) ∈ m := by
  induction m with
  | nil => simp [List.lookup] at h
  | cons p t ih =>
    rcases p with ⟨pk, pv⟩
    by_cases hk : k = pk
    · subst hk
      simp only [List.lookup, beq_self_eq_true] at h
      have h2 : pv = v := by simpa using h
      subst h2
      exact List.mem_cons_self _ _
    · have hk' : (k == pk) = false := by simp [hk]
      simp only [List.lookup, hk'] at h
      exact List.mem_cons_of_mem _ (ih h)

theorem getD_eq_getD_of_isSome {β : Type*} {o : Option β} (h : o.isSome = true)
    (d1 d2 : β) : o.getD d1 = o.getD d2 := by
  cases o with
  | none => simp at h
  | some v => rfl

theorem mem_updateMap {m : List (ℕ × List String)} {k : ℕ} {v : List String}
    {p : ℕ × List String} (h : p ∈ updateMap m k v) : p ∈ m ∨ p = (k, v) := by
  rcases Bool.eq_false_or_eq_true (m.any fun q => q.1 == k) with hk | hk
  · simp only [updateMap, hk, if_true] at h
    rcases List.mem_map.1 h with ⟨q, hq, hqe⟩
    rcases Bool.eq_false_or_eq_true (q.1 == k) with hq1 | hq1
    · simp only [hq1, if_true] at hqe
      exact Or.inr hqe.symm
    · simp only [hq1, Bool.false_eq_true, if_false] at hqe
      exact Or.inl (hqe ▸ hq)
  · simp only [updateMap, hk, Bool.false_eq_true, if_false] at h
    rcases List.mem_append.1 h with h1 | h2
    · exact Or.inl h1
    · exact Or.inr (by simpa using h2)

theorem updateMap_keys_of_mem {m : List (ℕ × List String)} {k : ℕ} {v : List String}
    (hk : (m.any fun q => q.1 == k) = true) :
    (updateMap m k v).map Prod.fst = m.map Prod.fst := by
  simp only [updateMap, hk, if_true]
  rw [List.map_map]
  apply List.map_congr_left
  intro q _
  rcases Bool.eq_false_or_eq_true (q.1 == k) with hq | hq
  · have hq' : q.1 = k := by simpa using hq
    simp [Function.comp, hq, hq']
  · have hq' : ¬ q.1 = k := by simpa using hq
    simp [Function.comp, hq, hq']

theorem updateMap_keys_of_not_mem {m : List (ℕ × List String)} {k : ℕ} {v : List String}
    (hk : (m.any fun q => q.1 == k) = false) :
    (updateMap m k v).map Prod.fst = m.map Prod.fst ++ [k] := by
  simp [updateMap, hk]

theorem updateMap_keys_nodup {m : List (ℕ × List String)} {k : ℕ} {v : List String}
    (h : (m.map Prod.fst).Nodup) : ((updateMap m k v).map Prod.fst).Nodup := by
  rcases Bool.eq_false_or_eq_true (m.any fun q => q.1 == k) with hk | hk
  · rw [updateMap_keys_of_mem hk]
    exact h
  · rw [updateMap_keys_of_not_mem hk]
    rw [List.nodup_append]
    refine ⟨h, List.nodup_singleton k, ?_⟩
    intro a ha hb
    have ha' : a = k := by simpa using hb
    subst ha'
    rcases List.mem_map.1 ha with ⟨q, hq, hqe⟩
    have hany : (m.any fun q => q.1 == a) = true :=
      List.any_eq_true.2 ⟨q, hq, by simp [hqe]⟩
    rw [hany] at hk
    simp at hk

theorem mem_updateMap_keys {m : List (ℕ × List String)} {k a : ℕ} {v : List String} :
    a ∈ (updateMap m k v).map Prod.fst ↔ a ∈ m.map Prod.fst ∨ a = k := by
  rcases Bool.eq_false_or_eq_true (m.any fun q => q.1 == k) with hk | hk
  · rw [updateMap_keys_of_mem hk]
    constructor
    · exact Or.inl
    · rintro (h | rfl)
      · exact h
      · rcases List.any_eq_true.1 hk with ⟨q, hq, hq1⟩
        have hqa : q.1 = a := by simpa using hq1
        exact hqa ▸ List.mem_map.2 ⟨q, hq, rfl⟩
  · rw [updateMap_keys_of_not_mem hk]
    simp

theorem buildHoldingsMap_inv (pt : PriceTable) (sm : ScoreMap) (topn : ℕ) (cal : Calendar) :
    ∀ p ∈ buildHoldingsMap pt sm topn cal,
      p.2 = selectAtDate pt sm topn p.1 ∧
      ∃ c ∈ candidates cal pt.dates, resolveDate pt.dates c = some p.1 := by
  have main : ∀ (l : List ℕ) (m : List (ℕ × List String)),
      (∀ c ∈ l, c ∈ candidates cal pt.dates) →
      (∀ p ∈ m, p.2 = selectAtDate pt sm topn p.1 ∧
        ∃ c ∈ candidates cal pt.dates, resolveDate pt.dates c = some p.1) →
      ∀ p ∈ l.foldl (fun m d =>
          match resolveDate pt.dates d with
          | none => m
          | some de => updateMap m de (selectAtDate pt sm topn de)) m,
        p.2 = selectAtDate pt sm topn p.1 ∧
        ∃ c ∈ candidates cal pt.dates, resolveDate pt.dates c = some p.1 := by
    intro l
    induction l with
    | nil => intro m _ hm p hp; exact hm p hp
    | cons d t ih =>
      intro m hl hm p hp
      simp only [List.foldl_cons] at hp
      refine ih _ (fun c hc => hl c (List.mem_cons_of_mem _ hc)) ?_ p hp
      intro q hq
      cases hres : resolveDate pt.dates d with
      | none => rw [hres] at hq; exact hm q hq
      | some de =>
        rw [hres] at hq
        rcases mem_updateMap hq with h1 | h2
        · exact hm q h1
        · subst h2
          exact ⟨rfl, ⟨d, hl d (List.mem_cons_self _ _), hres⟩⟩
  exact main (candidates cal pt.dates) [] (fun c hc => hc) (by simp)

theorem buildHoldingsMap_nodup (pt : PriceTable) (sm : ScoreMap) (topn : ℕ)
    (cal : Calendar) : ((buildHoldingsMap pt sm topn cal).map Prod.fst).Nodup := by
  have main : ∀ (l : List ℕ) (m : List (ℕ × List String)),
      (m.map Prod.fst).Nodup →
      ((l.foldl (fun m d =>
          match resolveDate pt.dates d with
          | none => m
          | some de => updateMap m de (selectAtDate pt sm topn de)) m).map Prod.fst).Nodup := by
    intro l
    induction l with
    | nil => intro m hm; exact hm
    | cons d t ih =>
      intro m hm
      simp only [List.foldl_cons]
      apply ih
      cases hres : resolveDate pt.dates d with
      | none => exact hm
      | some de => exact updateMap_keys_nodup hm
  exact main (candidates cal pt.dates) [] (by simp)

theorem holdingsSeriesAux_map_fst (m : List (ℕ × List String)) :
    ∀ (dates : List ℕ) (cur : List String),
    (holdingsSeriesAux m cur dates).map Prod.fst = dates := by
  intro dates
  induction dates with
  | nil => intro cur; rfl
  | cons d t ih => intro cur; simp [holdingsSeriesAux, ih]

theorem holdingsSeriesAux_length (m : List (ℕ × List String)) (dates : List ℕ)
    (cur : List String) : (holdingsSeriesAux m cur dates).length = dates.length := by
  have := congrArg List.length (holdingsSeriesAux_map_fst m dates cur)
  simpa using this

theorem holdingsSeriesAux_closed (m : List (ℕ × List String)) :
    ∀ (dates : List ℕ) (cur : List String) (j : ℕ) (hj : j < dates.length),
      dates.Pairwise (· ≤ ·) →
      (holdingsSeriesAux m cur dates).getD j (0, []) =
        (dates.get ⟨j, hj⟩,
          match maxKeyLE m (dates.get ⟨j, hj⟩) with
          | none => cur
          | some r => (m.lookup r).getD []) := by
  intro dates
  induction dates with
  | nil => intro cur j hj _; simp at hj
  | cons d t ih =>
    intro cur j hj hp
    cases j with
    | zero =>
      have hget : (d :: t).get ⟨0, hj⟩ = d := rfl
      simp only [holdingsSeriesAux, List.getD_cons_zero]
      rw [hget]
      unfold holdingsStep
      cases hmk : maxKeyLE m d with
      | none => rfl
      | some r =>
        have hr := (maxKeyLE_some hmk).1
        have hsome := lookup_isSome_of_mem_keys hr
        show (d, (List.lookup r m).getD cur) = (d, (List.lookup r m).getD [])
        rw [getD_eq_getD_of_isSome hsome cur []]
    | succ j' =>
      have hj' : j' < t.length := by simpa using hj
      have hget : (d :: t).get ⟨j' + 1, hj⟩ = t.get ⟨j', hj'⟩ := rfl
      simp only [holdingsSeriesAux, List.getD_cons_succ]
      rw [ih (holdingsStep m cur d) j' hj' (List.Pairwise.of_cons hp), hget]
      cases hmk : maxKeyLE m (t.get ⟨j', hj'⟩) with
      | none =>
        have hdle : d ≤ t.get ⟨j', hj'⟩ :=
          (List.pairwise_cons.1 hp).1 _ (t.get_mem _ _)
        have h0 : maxKeyLE m d = none := maxKeyLE_none_mono hdle hmk
        simp [holdingsStep, h0]
      | some r => rfl

theorem pctAux_length (ps : List PVal) : ∀ prev : PVal, (pctAux prev ps).length = ps.length := by
  induction ps with
  | nil => intro prev; rfl
  | cons q qs ih => intro prev; simp [pctAux, ih]

theorem ffill_length (c : List PVal) : (ffill c).length = c.length :=
  ffillFrom_length none c

theorem pctChange_length (col : List PVal) : (pctChange col).length = col.length := by
  have hlen : (ffill col).length = col.length := ffill_length col
  cases hf : ffill col with
  | nil =>
    rw [hf] at hlen
    simp only [List.length_nil] at hlen
    simp only [pctChange, hf, List.length_nil]
    exact hlen
  | cons p ps =>
    rw [hf] at hlen
    simp only [pctChange, hf, List.length_cons, pctAux_length]
    simpa using hlen

theorem pctChange_getD_zero (col : List PVal) : (pctChange col).getD 0 0 = 0 := by
  cases hf : ffill col with
  | nil => simp [pctChange, hf]
  | cons p ps => simp [pctChange, hf]

theorem pctAux_getD (ps : List PVal) : ∀ (prev : PVal) (j : ℕ), j < ps.length →
    (pctAux prev ps).getD j 0 = pctStep ((prev :: ps).getD j none) (ps.getD j none) := by
  induction ps with
  | nil => intro prev j h; simp at h
  | cons q qs ih =>
    intro prev j h
    cases j with
    | zero => simp [pctAux]
    | succ j' =>
      have h' : j' < qs.length := by simpa using h
      simpa [pctAux] using ih q j' h'

theorem retOf_getD_zero (pt : PriceTable) (t : String) : (retOf pt t).getD 0 0 = 0 := by
  unfold retOf
  cases hl : (retCols pt).lookup t with
  | none => simp
  | some l =>
    have hmem := lookup_mem hl
    rcases List.mem_map.1 hmem with ⟨c, _, hc⟩
    have hl2 : l = pctChange c.2 := by
      have := congrArg Prod.snd hc
      simpa using this.symm
    simp only [Option.getD_some]
    rw [hl2]
    exact pctChange_getD_zero c.2

theorem mean_zeros {xs : List ℚ} (h : ∀ x ∈ xs, x = 0) : mean xs = 0 := by
  unfold mean
  rw [List.sum_eq_zero h, zero_div]

theorem portRetList_length (pt : PriceTable) (hs : List (ℕ × List String)) :
    (portRetList pt hs).length = hs.length := by
  simp [portRetList]

theorem portRetList_getD_zero (pt : PriceTable) (hs : List (ℕ × List String))
    (hne : hs ≠ []) : (portRetList pt hs).getD 0 0 = 0 := by
  cases hs with
  | nil => exact absurd rfl hne
  | cons p rest =>
    have h0 : 0 < (p :: rest).length := by simp
    rw [portRetList, enum_map_getD _ _ 0 _ h0]
    have hget : (p :: rest).get ⟨0, h0⟩ = p := rfl
    rw [hget]
    by_cases hsel : p.2 = []
    · simp [hsel]
    · simp only [hsel, if_false]
      apply mean_zeros
      intro x hx
      rcases List.mem_map.1 hx with ⟨t, _, ht⟩
      rw [← ht]
      exact retOf_getD_zero pt t

theorem benchRet_length (pt : PriceTable) : (benchRet pt).length = pt.dates.length := by
  simp [benchRet]

theorem benchRet_getD_zero (pt : PriceTable) (hne : pt.dates ≠ []) :
    (benchRet pt).getD 0 0 = 0 := by
  have h0 : 0 < pt.dates.length := List.length_pos.2 hne
  rw [benchRet, range_map_getD _ _ 0 _ h0]
  unfold benchRetAt
  apply mean_zeros
  intro x hx
  rcases List.mem_map.1 hx with ⟨c, hc, hce⟩
  rcases List.mem_map.1 hc with ⟨c0, _, hc0⟩
  rw [← hce, ← hc0]
  simpa using pctChange_getD_zero c0.2

theorem cumProd_getD_zero (rs : List ℚ) (hne : rs ≠ []) (h0 : rs.getD 0 0 = 0) :
    (cumProd rs).getD 0 0 = 1 := by
  cases rs with
  | nil => exact absurd rfl hne
  | cons r t =>
    have hr : r = 0 := by simpa using h0
    subst hr
    simp [cumProd_cons]

theorem runMax_cumProd_ge_one (rs : List ℚ) (h0 : rs.getD 0 0 = 0) (j : ℕ)
    (hj : j < (cumProd rs).length) : 1 ≤ (runMax (cumProd rs)).getD j 0 := by
  cases rs with
  | nil => simp [cumProd, cumProdAux] at hj
  | cons r t =>
    have hr : r = 0 := by simpa using h0
    subst hr
    rw [cumProd_cons] at hj ⊢
    have hh := runMax_ge_head (1 * (1 + 0)) (cumProdAux (1 * (1 + 0)) t) j
    have h1 : (1:ℚ) * (1 + 0) = 1 := by ring
    rw [h1] at hh
    have := hh (by simpa [h1] using hj)
    simpa [h1] using this

theorem drawdown_shape (rs : List ℚ) (h0 : rs.getD 0 0 = 0) (j : ℕ)
    (hj : j < (cumProd rs).length) :
    (drawdown (cumProd rs)).getD j 0 ≤ 0 ∧
      ((drawdown (cumProd rs)).getD j 0 = 0 ↔
        (cumProd rs).getD j 0 = (runMax (cumProd rs)).getD j 0) := by
  have hm1 : 1 ≤ (runMax (cumProd rs)).getD j 0 := runMax_cumProd_ge_one rs h0 j hj
  have hpos : (0:ℚ) < (runMax (cumProd rs)).getD j 0 := lt_of_lt_of_le one_pos hm1
  have hle : (cumProd rs).getD j 0 ≤ (runMax (cumProd rs)).getD j 0 :=
    runMax_ge_elem (cumProd rs) j hj
  rw [drawdown_getD (cumProd rs) j hj]
  constructor
  · rw [div_nonpos_iff]
    right
    exact ⟨by linarith, le_of_lt hpos⟩
  · rw [div_eq_zero_iff]
    constructor
    · rintro (h | h)
      · linarith
      · exact absurd h (ne_of_gt hpos)
    · intro h
      left
      linarith

theorem cols_are_ffilled {rt : RawTable} {c : String × List PVal}
    (hc : c ∈ (buildPriceTable rt).cols) : ffill c.2 = c.2 := by
  simp only [buildPriceTable] at hc
  have hc' := (List.mem_filter.1 hc).1
  rcases List.mem_map.1 hc' with ⟨p, _, hpe⟩
  have h2 : c.2 = ffill (rawCol (sortRows rt.rows) p.1) := by
    rw [← hpe]
  rw [h2, ffill_idem]

theorem pctChange_eq_spec (col : List PVal) (hcol : ffill col = col) (j : ℕ)
    (hj : j < col.length) : (pctChange col).getD j 0 = specColReturn col j := by
  cases col with
  | nil => simp at hj
  | cons p ps =>
    cases j with
    | zero => simp [pctChange, hcol, specColReturn]
    | succ j' =>
      have hj' : j' < ps.length := by simpa using hj
      simp only [pctChange, hcol, List.getD_cons_succ]
      rw [pctAux_getD ps p j' hj']
      simp only [specColReturn, Nat.succ_ne_zero, if_false]
      have h1 : j' + 1 - 1 = j' := by omega
      rw [h1]
      have h2 : (p :: ps).getD (j' + 1) none = ps.getD j' none := List.getD_cons_succ
      rw [h2]
      rfl

theorem mem_candidates (cal : Calendar) {dates : List ℕ} {c : ℕ}
    (hc : c ∈ candidates cal dates) :
    ∃ a b, dates.head? = some a ∧ dates.getLast? = some b ∧
      cal.month a ≤ cal.month c ∧ cal.month c ≤ cal.month b ∧
      c = cal.mEnd (cal.month c) := by
  cases hd : dates.head? with
  | none => simp [candidates, hd] at hc
  | some a =>
    cases hl : dates.getLast? with
    | none => simp [candidates, hd, hl] at hc
    | some b =>
      simp only [candidates, hd, hl, List.mem_map, List.mem_range] at hc
      rcases hc with ⟨k, hk, hke⟩
      have hm : cal.month c = cal.month a + k := by
        rw [← hke, cal.month_mEnd]
      refine ⟨a, b, rfl, rfl, ?_, ?_, ?_⟩
      · omega
      · omega
      · rw [hm, ← hke]

theorem candidates_cover (cal : Calendar) {dates : List ℕ} (hs : dates.Pairwise (· ≤ ·))
    {d : ℕ} (hd : d ∈ dates) :
    ∃ c ∈ candidates cal dates, cal.month c = cal.month d := by
  have hne : dates ≠ [] := by rintro rfl; simp at hd
  obtain ⟨a, ha⟩ : ∃ a, dates.head? = some a := by
    cases dates with
    | nil => exact absurd rfl hne
    | cons x t => exact ⟨x, rfl⟩
  have hb := List.getLast?_eq_getLast_of_ne_nil hne
  set b := dates.getLast hne with hbdef
  have h1 : a ≤ d := pairwise_le_head hs ha hd
  have h2 : d ≤ b := pairwise_le_getLast hs hb hd
  have hma : cal.month a ≤ cal.month d := cal.month_mono h1
  have hmb : cal.month d ≤ cal.month b := cal.month_mono h2
  refine ⟨cal.mEnd (cal.month a + (cal.month d - cal.month a)), ?_, ?_⟩
  · simp only [candidates, ha, hb, List.mem_map, List.mem_range]
    exact ⟨cal.month d - cal.month a, by omega, rfl⟩
  · rw [cal.month_mEnd]
    omega

/-! ## Claim theorems -/

/-- C1: on a constructed price table, the per-ticker daily simple return on
date `t` is `price[t]/price[t-1] - 1` with the first date's return 0 and NaN
returns replaced by 0; for every holdings assignment, the portfolio return on
a date is the arithmetic mean of the per-ticker returns of exactly the held
tickers (0 for empty holdings); the benchmark return is the arithmetic mean
of the per-ticker returns of all ticker columns, independent of holdings
(`benchRet` takes no holdings argument). -/
theorem C1_returns_portfolio_benchmark (rt : RawTable) (hs : List (ℕ × List String)) :
    (∀ c ∈ (buildPriceTable rt).cols, ∀ j, j < c.2.length →
        (pctChange c.2).getD j 0 = specColReturn c.2 j)
    ∧ (∀ j (hj : j < hs.length),
        (portRetList (buildPriceTable rt) hs).getD j 0 =
          specPortRet (buildPriceTable rt) ((hs.get ⟨j, hj⟩).2) j)
    ∧ (∀ j, j < (buildPriceTable rt).dates.length →
        (benchRet (buildPriceTable rt)).getD j 0 = specBenchRet (buildPriceTable rt) j) := by
  refine ⟨?_, ?_, ?_⟩
  · intro c hc j hj
    exact pctChange_eq_spec c.2 (cols_are_ffilled hc) j hj
  · intro j hj
    rw [portRetList, enum_map_getD _ _ j _ hj]
    by_cases hsel : (hs.get ⟨j, hj⟩).2 = []
    all_goals simp only [List.get_eq_getElem] at hsel
    · simp [hsel, specPortRet]
    · simp [hsel, specPortRet, mean]
  · intro j hj
    rw [benchRet, range_map_getD _ _ j _ hj]
    simp [benchRetAt, specBenchRet, mean]

/-- C1 witness: the portfolio-return equation instantiated on the concrete
fixture at date position 1. -/
theorem C1_witness :
    (portRetList (buildPriceTable rt0) hs0).getD 1 0 =
      specPortRet (buildPriceTable rt0) ((hs0.get ⟨1, by decide⟩).2) 1 :=
  (C1_returns_portfolio_benchmark rt0 hs0).2.1 1 (by decide)

/-- C2: the selection of a rebalance row is the first `top_n` entries of the
stable ascending sort (by score, ties by original column position) of the
tickers with a present price and a non-NaN score; hence it has at most
`top_n` elements and is contained in the qualifying tickers. -/
theorem C2_selection_rank (pt : PriceTable) (sm : ScoreMap) (topn j : ℕ) :
    selectAt pt sm topn j = (rankedAt pt sm j).take topn
    ∧ (rankedAt pt sm j).Perm
        ((availAt pt j).filter (fun a => (scoreOf sm a).isSome))
    ∧ (List.insertionSort (rankLE sm)
        (((availAt pt j).filter (fun a => (scoreOf sm a).isSome)).enum)).Sorted (rankLE sm)
    ∧ (selectAt pt sm topn j).length ≤ topn
    ∧ (∀ t ∈ selectAt pt sm topn j,
        t ∈ availAt pt j ∧ (scoreOf sm t).isSome = true) := by
  have hperm : (rankedAt pt sm j).Perm
      ((availAt pt j).filter (fun a => (scoreOf sm a).isSome)) := by
    unfold rankedAt
    have h1 := List.perm_insertionSort (rankLE sm)
      (((availAt pt j).filter (fun a => (scoreOf sm a).isSome)).enum)
    have h2 := h1.map Prod.snd
    rwa [List.enum_map_snd] at h2
  refine ⟨rfl, hperm, List.sorted_insertionSort _ _, ?_, ?_⟩
  · rw [selectAt, List.length_take]
    exact min_le_left _ _
  · intro t ht
    have ht' : t ∈ rankedAt pt sm j := List.take_subset _ _ ht
    have hmem := hperm.mem_iff.1 ht'
    have hf := List.mem_filter.1 hmem
    exact ⟨hf.1, by simpa using hf.2⟩

/-- C2 witness: on the fixture with `top_n = 1`, ticker A is selected, is
available, and has a non-NaN score. -/
theorem C2_witness :
    "A" ∈ selectAt (buildPriceTable rt0) sm0 1 0 ∧
      "A" ∈ availAt (buildPriceTable rt0) 0 ∧ (scoreOf sm0 "A").isSome = true := by
  have hmem : "A" ∈ selectAt (buildPriceTable rt0) sm0 1 0 := by decide
  have h := (C2_selection_rank (buildPriceTable rt0) sm0 1 0).2.2.2.2 "A" hmem
  exact ⟨hmem, h.1, h.2⟩

/-- C3: the holdings on each trading date equal the stored selection of the
latest resolved rebalance date at or before it (empty before any rebalance);
every stored selection is the selection function of its effective date; and
holdings form a step function: equal on any two dates with no rebalance key
in the half-open interval between them.  The series covers all trading
dates. -/
theorem C3_holdings_step_function (pt : PriceTable) (sm : ScoreMap) (topn : ℕ)
    (cal : Calendar) (hsort : pt.dates.Pairwise (· ≤ ·)) :
    ((holdingsSeries pt sm topn cal).map Prod.fst = pt.dates)
    ∧ (∀ j (hj : j < pt.dates.length),
        ((holdingsSeries pt sm topn cal).getD j (0, [])).2 =
          match maxKeyLE (buildHoldingsMap pt sm topn cal) (pt.dates.get ⟨j, hj⟩) with
          | none => []
          | some r => ((buildHoldingsMap pt sm topn cal).lookup r).getD [])
    ∧ (∀ r sel, (buildHoldingsMap pt sm topn cal).lookup r = some sel →
        sel = selectAtDate pt sm topn r)
    ∧ (∀ j1 j2 (h1 : j1 < pt.dates.length) (h2 : j2 < pt.dates.length),
        pt.dates.get ⟨j1, h1⟩ ≤ pt.dates.get ⟨j2, h2⟩ →
        (∀ k ∈ (buildHoldingsMap pt sm topn cal).map Prod.fst,
          ¬(pt.dates.get ⟨j1, h1⟩ < k ∧ k ≤ pt.dates.get ⟨j2, h2⟩)) →
        ((holdingsSeries pt sm topn cal).getD j1 (0, [])).2 =
          ((holdingsSeries pt sm topn cal).getD j2 (0, [])).2) := by
  refine ⟨holdingsSeriesAux_map_fst _ _ _, ?_, ?_, ?_⟩
  · intro j hj
    rw [holdingsSeries,
      holdingsSeriesAux_closed (buildHoldingsMap pt sm topn cal) pt.dates [] j hj hsort]
  · intro r sel hl
    exact ((buildHoldingsMap_inv pt sm topn cal) (r, sel) (lookup_mem hl)).1
  · intro j1 j2 h1 h2 hle hint
    rw [holdingsSeries,
      holdingsSeriesAux_closed (buildHoldingsMap pt sm topn cal) pt.dates [] j1 h1 hsort,
      holdingsSeriesAux_closed (buildHoldingsMap pt sm topn cal) pt.dates [] j2 h2 hsort]
    have hfil : (((buildHoldingsMap pt sm topn cal).map Prod.fst).filter
          (fun r => decide (r ≤ pt.dates.get ⟨j1, h1⟩))) =
        (((buildHoldingsMap pt sm topn cal).map Prod.fst).filter
          (fun r => decide (r ≤ pt.dates.get ⟨j2, h2⟩))) := by
      apply List.filter_congr
      intro k hk
      rw [decide_eq_decide]
      constructor
      · intro h; exact le_trans h hle
      · intro h
        by_contra hcon
        exact hint k hk ⟨by omega, h⟩
    have hmk : maxKeyLE (buildHoldingsMap pt sm topn cal) (pt.dates.get ⟨j1, h1⟩) =
        maxKeyLE (buildHoldingsMap pt sm topn cal) (pt.dates.get ⟨j2, h2⟩) := by
      unfold maxKeyLE
      rw [hfil]
    rw [hmk]

/-- C3 witness: the step invariant instantiated at the concrete fixture
(both positions on the same date, an empty interval). -/
theorem C3_witness :
    ((holdingsSeries (buildPriceTable rt0) sm0 1 cal30).getD 0 (0, [])).2 =
      ((holdingsSeries (buildPriceTable rt0) sm0 1 cal30).getD 0 (0, [])).2 :=
  (C3_holdings_step_function (buildPriceTable rt0) sm0 1 cal30 (by decide)).2.2.2
    0 0 (by decide) (by decide) (by decide) (by decide)

/-- C4 counterexample: the claim "each candidate boundary is the first trading
day of its calendar period present in the index" is false: with trading days
30 and 45 (both in period 1 of the 30-day calendar), the only candidate
produced by the end-of-period resampling is 59 (the period end), while the
first trading day of that period present in the index is 30. -/
theorem C4_counterexample :
    ¬ ∀ c ∈ candidates cal30 [30, 45],
        firstTradingOfPeriod cal30 [30, 45] (cal30.month c) = some c := by
  decide

/-- C4 amended: each candidate boundary produced by the scheduler is the LAST
calendar day of its period (the pandas `"M"`/`"Q"` period-end label), so every
trading day of the same period is at or before it; and every trading day's
period contributes a candidate (periods from the first to the last index date
are covered). -/
theorem C4_amended_period_end (cal : Calendar) (dates : List ℕ)
    (hsort : dates.Pairwise (· ≤ ·)) :
    (∀ c ∈ candidates cal dates,
        c = cal.mEnd (cal.month c) ∧ ∀ d ∈ dates, cal.month d = cal.month c → d ≤ c)
    ∧ (∀ d ∈ dates, ∃ c ∈ candidates cal dates, cal.month c = cal.month d) := by
  constructor
  · intro c hc
    rcases mem_candidates cal hc with ⟨a, b, _, _, _, _, hce⟩
    refine ⟨hce, ?_⟩
    intro d hd hmd
    have hle := cal.le_mEnd d
    rw [hmd] at hle
    rw [hce]
    exact hle
  · intro d hd
    exact candidates_cover cal hsort hd

/-- C4 witness: on the 30-day calendar with index [30, 45], the candidate 59
is its own period end and dominates the trading days of its period. -/
theorem C4_witness :
    (59 : ℕ) = cal30.mEnd (cal30.month 59) ∧
      ∀ d ∈ [30, 45], cal30.month d = cal30.month 59 → d ≤ 59 :=
  (C4_amended_period_end cal30 [30, 45] (by decide)).1 59 (by decide)

/-- C5: the effective rebalance dates (the holdings-map keys) are distinct and
lie in the price index, each arising from a candidate that resolves to it at
or before itself; resolution of any candidate yields the nearest index date at
or before it (never a future date); a candidate with no prior trading day
resolves to nothing and is skipped. -/
theorem C5_resolution (pt : PriceTable) (sm : ScoreMap) (topn : ℕ) (cal : Calendar)
    (hsort : pt.dates.Pairwise (· ≤ ·)) :
    (((buildHoldingsMap pt sm topn cal).map Prod.fst).Nodup)
    ∧ (∀ k ∈ (buildHoldingsMap pt sm topn cal).map Prod.fst,
        k ∈ pt.dates ∧ ∃ c ∈ candidates cal pt.dates,
          resolveDate pt.dates c = some k ∧ k ≤ c)
    ∧ (∀ c e, resolveDate pt.dates c = some e →
        e ∈ pt.dates ∧ e ≤ c ∧ ∀ x ∈ pt.dates, x ≤ c → x ≤ e)
    ∧ (∀ c, resolveDate pt.dates c = none → ∀ x ∈ pt.dates, ¬ x ≤ c) := by
  refine ⟨buildHoldingsMap_nodup pt sm topn cal, ?_, ?_, ?_⟩
  · intro k hk
    rcases List.mem_map.1 hk with ⟨p, hp, hpe⟩
    subst hpe
    rcases buildHoldingsMap_inv pt sm topn cal p hp with ⟨_, c, hc, hres⟩
    have hr := resolveDate_some hsort hres
    exact ⟨hr.1, c, hc, hres, hr.2.1⟩
  · intro c e hres
    exact resolveDate_some hsort hres
  · intro c hres
    exact resolveDate_none hres

/-- C5 witness: on the fixture (index [30, 45], 30-day calendar) the single
effective rebalance date 45 is in the index and comes from candidate 59,
resolved backwards. -/
theorem C5_witness :
    (45 : ℕ) ∈ (buildPriceTable rt0).dates ∧
      ∃ c ∈ candidates cal30 (buildPriceTable rt0).dates,
        resolveDate (buildPriceTable rt0).dates c = some 45 ∧ 45 ≤ c :=
  (C5_resolution (buildPriceTable rt0) sm0 1 cal30 (by decide)).2.1 45 (by decide)

/-- C6: after construction (sort, per-ticker forward fill, drop all-NaN
columns), a ticker with at least one observation is kept with its
forward-filled column, and its filled entry at any position is present iff
some raw observation exists at or before that position (so values propagate
forward and leading NaNs stay NaN); a ticker whose raw column is entirely NaN
is absent from the table. -/
theorem C6_ffill_invariant (rt : RawTable) (i : ℕ) (hi : i < rt.tickers.length)
    (hnd : rt.tickers.Nodup) :
    ((∃ x ∈ rawCol (sortRows rt.rows) i, x.isSome = true) →
      (rt.tickers.get ⟨i, hi⟩, ffill (rawCol (sortRows rt.rows) i)) ∈
          (buildPriceTable rt).cols
        ∧ ∀ j, j < (rawCol (sortRows rt.rows) i).length →
            (((ffill (rawCol (sortRows rt.rows) i)).getD j none).isSome = true ↔
              ∃ k, k ≤ j ∧ ((rawCol (sortRows rt.rows) i).getD k none).isSome = true))
    ∧ ((¬ ∃ x ∈ rawCol (sortRows rt.rows) i, x.isSome = true) →
        ∀ c ∈ (buildPriceTable rt).cols, c.1 ≠ rt.tickers.get ⟨i, hi⟩) := by
  constructor
  · intro hexists
    constructor
    · have hmem : (i, rt.tickers.get ⟨i, hi⟩) ∈ rt.tickers.enum := by
        rw [List.mk_mem_enum_iff_getElem?]
        rw [List.getElem?_eq_getElem hi]
        simp [List.get_eq_getElem]
      have hmap : (rt.tickers.get ⟨i, hi⟩, ffill (rawCol (sortRows rt.rows) i)) ∈
          rt.tickers.enum.map (fun p => (p.2, ffill (rawCol (sortRows rt.rows) p.1))) :=
        List.mem_map.2 ⟨(i, rt.tickers.get ⟨i, hi⟩), hmem, rfl⟩
      have hpred : (ffill (rawCol (sortRows rt.rows) i)).any (fun v => v.isSome) = true := by
        rw [List.any_eq_true]
        exact (ffillFrom_exists_isSome (rawCol (sortRows rt.rows) i) none).2
          (Or.inr hexists)
      simp only [buildPriceTable]
      exact List.mem_filter.2 ⟨hmap, hpred⟩
    · intro j hj
      have h := ffillFrom_getD_isSome (rawCol (sortRows rt.rows) i) none j hj
      simpa [ffill] using h
  · intro hno c hc hceq
    simp only [buildPriceTable] at hc
    have hc1 := (List.mem_filter.1 hc).1
    have hc2 := (List.mem_filter.1 hc).2
    rcases List.mem_map.1 hc1 with ⟨p, hp, hpe⟩
    rcases p with ⟨i2, t2⟩
    rw [List.mk_mem_enum_iff_getElem?] at hp
    rcases List.getElem?_eq_some.1 hp with ⟨hi2, hget2⟩
    have hc1' : c.1 = t2 := by rw [← hpe]
    have e1 : rt.tickers.get ⟨i2, hi2⟩ = t2 := by
      simp only [List.get_eq_getElem]
      exact hget2
    have heq : rt.tickers.get ⟨i2, hi2⟩ = rt.tickers.get ⟨i, hi⟩ := by
      rw [e1, ← hc1']
      exact hceq
    have hii : i2 = i := by
      have := hnd.get_inj_iff.1 heq
      simpa using this
    subst hii
    have hc2' : c.2 = ffill (rawCol (sortRows rt.rows) i2) := by rw [← hpe]
    rw [hc2'] at hc2
    rw [List.any_eq_true] at hc2
    have := (ffillFrom_exists_isSome (rawCol (sortRows rt.rows) i2) none).1 hc2
    rcases this with ⟨hne, habs⟩ | hobs
    · simp at habs
    · exact hno hobs

/-- C6 witness: ticker A of the fixture has observations, so it is kept with
its forward-filled column. -/
theorem C6_witness :
    (rt0.tickers.get ⟨0, by decide⟩, ffill (rawCol (sortRows rt0.rows) 0)) ∈
      (buildPriceTable rt0).cols :=
  ((C6_ffill_invariant rt0 0 (by decide) (by decide)).1 (by decide)).1

/-- C7: the Sharpe ratio equals
`(mean daily return * 252 - risk_free_annual) / (std * sqrt 252)` and is
reported exactly when the daily-return standard deviation is positive
(`std = sqrt variance`, so `std > 0` iff `variance > 0`); when the variance
is zero (constant series) or NaN (fewer than two observations), and for every
other NaN-producing statistic (empty series), the stats record holds an
explicit null (`none`), never a numeric NaN. -/
theorem C7_sharpe_and_null_policy (rs cum : List ℚ) (rf : ℚ) :
    ((statsOf rs cum rf).sharpe = sharpeOf rs rf)
    ∧ (∀ v, sampleVar rs = some v → 0 < v →
        (statsOf rs cum rf).sharpe =
            some (((mean rs : ℝ) * 252 - (rf : ℝ)) /
              (Real.sqrt (v : ℝ) * Real.sqrt 252))
          ∧ (0 : ℝ) < Real.sqrt (v : ℝ))
    ∧ (∀ v, sampleVar rs = some v → ¬ 0 < v → (statsOf rs cum rf).sharpe = none)
    ∧ (sampleVar rs = none → (statsOf rs cum rf).sharpe = none)
    ∧ ((statsOf rs cum rf).annual_vol = none ↔ rs.length < 2)
    ∧ ((statsOf rs cum rf).max_drawdown = none ↔ cum = [])
    ∧ ((statsOf rs cum rf).annual_return = none ↔ cum = [])
    ∧ ((statsOf rs cum rf).final_cum_return = none ↔ cum = []) := by
  refine ⟨rfl, ?_, ?_, ?_, ?_, ?_, ?_, ?_⟩
  · intro v hv hpos
    constructor
    · show sharpeOf rs rf = _
      simp [sharpeOf, hv, hpos]
    · rw [Real.sqrt_pos]
      exact_mod_cast hpos
  · intro v hv hpos
    show sharpeOf rs rf = none
    simp [sharpeOf, hv, hpos]
  · intro hv
    show sharpeOf rs rf = none
    simp [sharpeOf, hv]
  · show annualVol rs = none ↔ rs.length < 2
    unfold annualVol sampleVar
    by_cases h : rs.length < 2
    · simp [h]
    · simp [h]
  · show (drawdown cum).min? = none ↔ cum = []
    rw [List.min?_eq_none_iff]
    constructor
    · intro h
      have hlen := congrArg List.length h
      rw [drawdown_length] at hlen
      exact List.length_eq_zero.1 (by simpa using hlen)
    · rintro rfl
      rfl
  · show annualReturn cum = none ↔ cum = []
    cases hl : cum.getLast? with
    | none =>
      have hc : cum = [] := List.getLast?_eq_none_iff.1 hl
      simp [annualReturn, hl, hc]
    | some c =>
      have hne : cum ≠ [] := by
        intro h
        rw [h] at hl
        simp at hl
      simp [annualReturn, hl, hne]
  · show cum.getLast? = none ↔ cum = []
    exact List.getLast?_eq_none_iff

/-- C7 witness: the constant return series [0, 0] has variance 0, and its
Sharpe ratio is reported as null. -/
theorem C7_witness :
    sampleVar [0, 0] = some 0 ∧
      (statsOf [0, 0] (cumProd [0, 0]) 0).sharpe = none := by
  have hv : sampleVar [0, 0] = some 0 := by
    norm_num [sampleVar, mean]
  exact ⟨hv,
    (C7_sharpe_and_null_policy [0, 0] (cumProd [0, 0]) 0).2.2.1 0 hv (by norm_num)⟩

/-- C8: every portfolio drawdown value is nonpositive and vanishes exactly on
the dates where the cumulative portfolio value equals its running maximum;
the same holds for the benchmark drawdown.  (The table must be nonempty; a
table with no columns is the fatal empty-input case excluded by the spec.) -/
theorem C8_drawdown_nonpositive (pt : PriceTable) (sm : ScoreMap) (topn : ℕ)
    (cal : Calendar) (rf : ℚ) (hd : pt.dates ≠ []) (_hcols : pt.cols ≠ []) :
    (∀ j, j < (runStrategy pt sm topn cal rf).cum_portfolio.length →
        (runStrategy pt sm topn cal rf).portfolio_drawdown.getD j 0 ≤ 0
        ∧ ((runStrategy pt sm topn cal rf).portfolio_drawdown.getD j 0 = 0 ↔
            (runStrategy pt sm topn cal rf).cum_portfolio.getD j 0 =
              (runMax ((runStrategy pt sm topn cal rf).cum_portfolio)).getD j 0))
    ∧ (∀ j, j < (runStrategy pt sm topn cal rf).cum_benchmark.length →
        (runStrategy pt sm topn cal rf).benchmark_drawdown.getD j 0 ≤ 0
        ∧ ((runStrategy pt sm topn cal rf).benchmark_drawdown.getD j 0 = 0 ↔
            (runStrategy pt sm topn cal rf).cum_benchmark.getD j 0 =
              (runMax ((runStrategy pt sm topn cal rf).cum_benchmark)).getD j 0)) := by
  have hhs : holdingsSeries pt sm topn cal ≠ [] := by
    intro h
    have hlen := holdingsSeriesAux_length (buildHoldingsMap pt sm topn cal) pt.dates []
    rw [show holdingsSeriesAux (buildHoldingsMap pt sm topn cal) [] pt.dates =
        holdingsSeries pt sm topn cal from rfl, h] at hlen
    exact hd (List.length_eq_zero.1 hlen.symm)
  have hport : (portRetList pt (holdingsSeries pt sm topn cal)).getD 0 0 = 0 :=
    portRetList_getD_zero pt _ hhs
  have hbench : (benchRet pt).getD 0 0 = 0 := benchRet_getD_zero pt hd
  constructor
  · intro j hj
    exact drawdown_shape (portRetList pt (holdingsSeries pt sm topn cal)) hport j hj
  · intro j hj
    exact drawdown_shape (benchRet pt) hbench j hj

/-- C8 witness: drawdown nonpositivity at the first date of the fixture. -/
theorem C8_witness :
    (runStrategy (buildPriceTable rt0) sm0 1 cal30 0).portfolio_drawdown.getD 0 0 ≤ 0
    ∧ ((runStrategy (buildPriceTable rt0) sm0 1 cal30 0).portfolio_drawdown.getD 0 0 = 0 ↔
        (runStrategy (buildPriceTable rt0) sm0 1 cal30 0).cum_portfolio.getD 0 0 =
          (runMax ((runStrategy (buildPriceTable rt0) sm0 1 cal30 0).cum_portfolio)).getD 0 0) :=
  (C8_drawdown_nonpositive (buildPriceTable rt0) sm0 1 cal30 0 (by decide) (by decide)).1
    0 (by decide)

/-- C9: the pipeline is a deterministic function of its inputs: two runs on
equal inputs produce equal per-day tables and equal stats records. -/
theorem C9_deterministic (pt1 pt2 : PriceTable) (sm1 sm2 : ScoreMap) (t1 t2 : ℕ)
    (cal1 cal2 : Calendar) (rf1 rf2 : ℚ) (hp : pt1 = pt2) (hsm : sm1 = sm2)
    (ht : t1 = t2) (hcal : cal1 = cal2) (hr : rf1 = rf2) :
    runStrategy pt1 sm1 t1 cal1 rf1 = runStrategy pt2 sm2 t2 cal2 rf2 := by
  subst hp
  subst hsm
  subst ht
  subst hcal
  subst hr
  rfl

/-- C9 witness: two runs on the concrete fixture coincide. -/
theorem C9_witness :
    runStrategy (buildPriceTable rt0) sm0 1 cal30 0 =
      runStrategy (buildPriceTable rt0) sm0 1 cal30 0 :=
  C9_deterministic (buildPriceTable rt0) (buildPriceTable rt0) sm0 sm0 1 1 cal30 cal30
    0 0 rfl rfl rfl rfl rfl

/-- C10: on a nonempty table both cumulative series start at exactly 1
(the first date's returns are forced to 0), and the running maxima of both
cumulative series are at least 1 — in particular nonzero — at every date, so
the drawdown divisions never divide by zero. -/
theorem C10_no_division_by_zero (pt : PriceTable) (sm : ScoreMap) (topn : ℕ)
    (cal : Calendar) (rf : ℚ) (hd : pt.dates ≠ []) (_hcols : pt.cols ≠ []) :
    (runStrategy pt sm topn cal rf).cum_portfolio.getD 0 0 = 1
    ∧ (runStrategy pt sm topn cal rf).cum_benchmark.getD 0 0 = 1
    ∧ (∀ j, j < (runStrategy pt sm topn cal rf).cum_portfolio.length →
        1 ≤ (runMax ((runStrategy pt sm topn cal rf).cum_portfolio)).getD j 0
        ∧ (runMax ((runStrategy pt sm topn cal rf).cum_portfolio)).getD j 0 ≠ 0)
    ∧ (∀ j, j < (runStrategy pt sm topn cal rf).cum_benchmark.length →
        1 ≤ (runMax ((runStrategy pt sm topn cal rf).cum_benchmark)).getD j 0
        ∧ (runMax ((runStrategy pt sm topn cal rf).cum_benchmark)).getD j 0 ≠ 0) := by
  have hhs : holdingsSeries pt sm topn cal ≠ [] := by
    intro h
    have hlen := holdingsSeriesAux_length (buildHoldingsMap pt sm topn cal) pt.dates []
    rw [show holdingsSeriesAux (buildHoldingsMap pt sm topn cal) [] pt.dates =
        holdingsSeries pt sm topn cal from rfl, h] at hlen
    exact hd (List.length_eq_zero.1 hlen.symm)
  have hpne : portRetList pt (holdingsSeries pt sm topn cal) ≠ [] := by
    intro h
    have := congrArg List.length h
    rw [portRetList_length] at this
    exact hhs (List.length_eq_zero.1 (by simpa using this))
  have hbne : benchRet pt ≠ [] := by
    intro h
    have := congrArg List.length h
    rw [benchRet_length] at this
    exact hd (List.length_eq_zero.1 (by simpa using this))
  have hport : (portRetList pt (holdingsSeries pt sm topn cal)).getD 0 0 = 0 :=
    portRetList_getD_zero pt _ hhs
  have hbench : (benchRet pt).getD 0 0 = 0 := benchRet_getD_zero pt hd
  refine ⟨cumProd_getD_zero _ hpne hport, cumProd_getD_zero _ hbne hbench, ?_, ?_⟩
  · intro j hj
    have hcp : (runStrategy pt sm topn cal rf).cum_portfolio =
        cumProd (portRetList pt (holdingsSeries pt sm topn cal)) := rfl
    rw [hcp] at hj ⊢
    have h1 := runMax_cumProd_ge_one _ hport j hj
    exact ⟨h1, by intro h0; rw [h0] at h1; norm_num at h1⟩
  · intro j hj
    have hcb : (runStrategy pt sm topn cal rf).cum_benchmark =
        cumProd (benchRet pt) := rfl
    rw [hcb] at hj ⊢
    have h1 := runMax_cumProd_ge_one _ hbench j hj
    exact ⟨h1, by intro h0; rw [h0] at h1; norm_num at h1⟩

/-- C10 witness: the cumulative portfolio series of the fixture starts at 1. -/
theorem C10_witness :
    (runStrategy (buildPriceTable rt0) sm0 1 cal30 0).cum_portfolio.getD 0 0 = 1 :=
  (C10_no_division_by_zero (buildPriceTable rt0) sm0 1 cal30 0 (by decide) (by decide)).1

end Backtest
